import Mathlib

/-!
Shallow embedding of the temporal point-cloud interpolation and frame-delta
core of the repository (src/src/lib/points.rs).

Modelling conventions:
- Rust f32 values are modelled as exact rationals (ℚ).  All the structural
  claims below (lengths, indices, counters, append-only deltas) are
  independent of floating-point rounding; exact arithmetic stands in for the
  rounded one.
- Rust u8 color channels are Nat; the u16 mapping counter is a Nat that is
  always kept below 2^16: every increment is taken mod 65536, matching the
  release-build wrapping semantics of the source's u16 += 1 (debug builds
  panic at the same point; either way the stored value is the wrapped one
  whenever a result is produced).
- Rust panics (unwrap on None, index out of bounds) are modelled as Option
  failure (none).
- The kd-tree crate and the color/coordinate modules are not part of the
  sources; they are modelled from the specification where noted.
-/

namespace VVtk

/-- Coordinates of a point: three 32-bit floats in the source, modelled as
exact rationals. -/
structure PointCoordinate where
  x : ℚ
  y : ℚ
  z : ℚ
deriving DecidableEq, Repr

/-- Colors of a point: three 8-bit unsigned channels. -/
structure PointColor where
  red : ℕ
  green : ℕ
  blue : ℕ
deriving DecidableEq, Repr

/-- A point of a frame (source struct Point in points.rs): coordinate, color,
mapping counter and stable index. -/
structure Point where
  point_coord : PointCoordinate
  point_color : PointColor
  mapping : ℕ
  index : ℕ
deriving DecidableEq, Repr

/-- A frame (source struct Points): the point data, the two delta sequences
and the owned reference snapshot. -/
structure Points where
  data : List Point
  delta_pos_vector : List (ℚ × ℚ × ℚ)
  delta_colours : List (ℚ × ℚ × ℚ)
  reference_frame : List Point
deriving DecidableEq, Repr

namespace PointCoordinate

/-- Modelled from the spec: the default coordinate of the all-zero point
(PointCoordinate::new_default lives in the missing coordinate module). -/
def new_default : PointCoordinate := ⟨0, 0, 0⟩

/-- Modelled from the spec: componentwise arithmetic mean of two coordinates
(PointCoordinate::get_average lives in the missing coordinate module). -/
def get_average (a b : PointCoordinate) : PointCoordinate :=
  ⟨(a.x + b.x) / 2, (a.y + b.y) / 2, (a.z + b.z) / 2⟩

end PointCoordinate

namespace PointColor

/-- Modelled from the spec: the default color of the all-zero point
(PointColor::new_default lives in the missing color module). -/
def new_default : PointColor := ⟨0, 0, 0⟩

/-- Source: PointColor::new(r, g, b). -/
def new (r g b : ℕ) : PointColor := ⟨r, g, b⟩

/-- Modelled from the spec: componentwise mean of two colors computed wide
and truncated back to 8 bits (PointColor::get_average lives in the missing
color module; the spec records that the source truncates). -/
def get_average (a b : PointColor) : PointColor :=
  ⟨(a.red + b.red) / 2, (a.green + b.green) / 2, (a.blue + b.blue) / 2⟩

end PointColor

/-- Squared Euclidean distance between two coordinates. -/
def sqDist (a b : PointCoordinate) : ℚ :=
  (a.x - b.x) ^ 2 + (a.y - b.y) ^ 2 + (a.z - b.z) ^ 2

/-- Squared Euclidean distance between two colors, channels promoted to
signed rationals. -/
def colorSqDist (a b : PointColor) : ℚ :=
  ((a.red : ℚ) - (b.red : ℚ)) ^ 2 + ((a.green : ℚ) - (b.green : ℚ)) ^ 2 +
    ((a.blue : ℚ) - (b.blue : ℚ)) ^ 2

/-- Largest natural m with m * m ≤ n, by a structural linear scan (kept
kernel-reducible so concrete instances evaluate). -/
def natSqrtLin (n : ℕ) : ℕ :=
  (List.range (n + 1)).foldl (fun acc m => if m * m ≤ n then m else acc) 0

/-- Rational model of the f32 square root: exact on rationals that are
squares of representable values, a floor approximation elsewhere.  On the
inputs used in this development it is exact. -/
def ratSqrt (q : ℚ) : ℚ :=
  ((natSqrtLin (q.num.natAbs * q.den) : ℚ)) / ((q.den : ℚ))

namespace Point

/-- Source: Point::new. -/
def new (pc : PointCoordinate) (col : PointColor) (m : ℕ) (i : ℕ) : Point :=
  ⟨pc, col, m, i⟩

/-- Source: Point::new_default — the all-zero point. -/
def new_default : Point :=
  ⟨PointCoordinate.new_default, PointColor.new_default, 0, 0⟩

/-- Source: Point::get_index (the getter simply returns the index field). -/
def get_index (p : Point) : ℕ := p.index

/-- Squared distance of a point from the origin, as computed by the two
powf sums in Point::partial_cmp. -/
def distFromOrigin2 (p : Point) : ℚ :=
  p.point_coord.x ^ 2 + p.point_coord.y ^ 2 + p.point_coord.z ^ 2

/-- Source: Point::partial_cmp.  Note the source applies sqrt to the first
point's squared distance but NOT to the second point's. -/
def partial_cmp (a b : Point) : Option Ordering :=
  let first_dist_from_ori := ratSqrt (distFromOrigin2 a)
  let next_dist_from_ori := distFromOrigin2 b
  if first_dist_from_ori < next_dist_from_ori then some Ordering.lt
  else if first_dist_from_ori > next_dist_from_ori then some Ordering.gt
  else some Ordering.eq

/-- Source: Point::get_average — averaged coordinate and color, mapping 0,
index taken from the receiver (the current point). -/
def get_average (p another_point : Point) : Point :=
  Point.new (p.point_coord.get_average another_point.point_coord)
    (p.point_color.get_average another_point.point_color) 0 p.index

/-- Modelled from the spec: Euclidean coordinate distance
(PointCoordinate::get_coord_delta lives in the missing coordinate module). -/
def get_coord_delta (p another_point : Point) : ℚ :=
  ratSqrt (sqDist p.point_coord another_point.point_coord)

/-- Modelled from the spec: Euclidean color distance with channels promoted
to floats (PointColor::get_color_delta lives in the missing color module). -/
def get_color_delta (p another_point : Point) : ℚ :=
  ratSqrt (colorSqDist p.point_color another_point.point_color)

/-- Source: Point::get_difference — the weighted cost of a candidate:
coordinate delta, color delta and the candidate's mapping count, each scaled
by its penalty weight. -/
def get_difference (p another_point : Point) (penalize_coor penalize_col : ℚ)
    (another_point_mapping : ℕ) (penalize_mapped : ℚ) : ℚ :=
  p.get_coord_delta another_point * penalize_coor +
    p.get_color_delta another_point * penalize_col +
    (another_point_mapping : ℚ) * penalize_mapped

end Point

/-- Increment a point's mapping counter (the Rust statement
reference_frame[i].mapping += 1 on a u16): the successor is taken mod 2^16,
the wrapping behavior of the source counter in release builds. -/
def bump (pt : Point) : Point := { pt with mapping := (pt.mapping + 1) % 65536 }

/-- The largest finite f32 value, the loop's initial minimum in
Point::get_closest. -/
def f32MAX : ℚ := 2 ^ 128 - 2 ^ 104

/-- Modelled from the spec: the kd-tree's exact nearest-neighbor query —
the reference point at smallest Euclidean distance, ties broken by lower
index, none on an empty tree.  The tree is modelled as the list of points it
was built from. -/
def kdNearest (q : Point) : List Point → Option Point
  | [] => none
  | c :: rest =>
    match kdNearest q rest with
    | none => some c
    | some b =>
      if sqDist c.point_coord q.point_coord < sqDist b.point_coord q.point_coord ∨
          (sqDist c.point_coord q.point_coord = sqDist b.point_coord q.point_coord ∧
            c.index < b.index) then some c
      else some b

/-- Ordering used by the k-nearest query: ascending distance to the query,
ties broken by lower index. -/
def nearerThan (q c b : Point) : Prop :=
  sqDist c.point_coord q.point_coord < sqDist b.point_coord q.point_coord ∨
    (sqDist c.point_coord q.point_coord = sqDist b.point_coord q.point_coord ∧
      c.index ≤ b.index)

instance (q c b : Point) : Decidable (nearerThan q c b) := by
  unfold nearerThan; infer_instance

/-- Insert a point into a list sorted by ascending distance to the query. -/
def insertByDist (q c : Point) : List Point → List Point
  | [] => [c]
  | b :: rest => if nearerThan q c b then c :: b :: rest else b :: insertByDist q c rest

/-- Sort a list of points by ascending distance to the query. -/
def sortByDist (q : Point) : List Point → List Point
  | [] => []
  | c :: rest => insertByDist q c (sortByDist q rest)

/-- Modelled from the spec: the kd-tree's k-nearest query — the k nearest
points in ascending distance order; all of them when fewer than k exist. -/
def kdNearests (q : Point) (tree : List Point) (k : ℕ) : List Point :=
  (sortByDist q tree).take k

/-- One positional delta entry of frame_delta: next coordinate minus prev
coordinate, componentwise. -/
def posDeltaEntry (n p : Point) : ℚ × ℚ × ℚ :=
  (n.point_coord.x - p.point_coord.x,
   n.point_coord.y - p.point_coord.y,
   n.point_coord.z - p.point_coord.z)

/-- One color delta entry of frame_delta: next color minus prev color,
channels promoted to signed rationals. -/
def colDeltaEntry (n p : Point) : ℚ × ℚ × ℚ :=
  ((n.point_color.red : ℚ) - (p.point_color.red : ℚ),
   (n.point_color.green : ℚ) - (p.point_color.green : ℚ),
   (n.point_color.blue : ℚ) - (p.point_color.blue : ℚ))

namespace Points

/-- Source: Points::new — the empty frame. -/
def new : Points := ⟨[], [], [], []⟩

/-- Source: Points::of — a frame holding the given data, with empty delta
sequences and empty reference snapshot. -/
def of (d : List Point) : Points := ⟨d, [], [], []⟩

/-- Source: Points::count. -/
def count (ps : Points) : ℕ := ps.data.length

/-- Source: Points::frame_delta.  The Rust loops run over the prev frame's
positions, indexing the receiver's coordinate and color vectors at the same
position; the subtraction results are pushed onto the receiver's two delta
sequences.  When prev is longer than the receiver's data the Rust indexing
panics (modelled as none); when prev is shorter only the prev-length prefix
participates, which zipWith reproduces. -/
def frame_delta (self prev : Points) : Option Points :=
  if prev.data.length ≤ self.data.length then
    some { self with
      delta_pos_vector := self.delta_pos_vector ++
        List.zipWith posDeltaEntry self.data prev.data,
      delta_colours := self.delta_colours ++
        List.zipWith colDeltaEntry self.data prev.data }
  else none

/-- Recolor one reference point as the marker does: mapping 0 becomes pure
green, every other point is untouched. -/
def markPoint (pt : Point) : Point :=
  if pt.mapping = 0 then { pt with point_color := PointColor.new 0 255 0 } else pt

/-- The marker's walk over the reference snapshot. -/
def markList (ref : List Point) : List Point := ref.map markPoint

/-- The count of mapped points the marker reports (points with a nonzero
mapping counter). -/
def mappedCount (ref : List Point) : ℕ :=
  List.countP (fun pt => decide (pt.mapping ≠ 0)) ref

/-- Source: Points::mark_mapped_points — recolors the unmapped points of the
reference snapshot green (the printed report is the pair mappedCount /
length, modelled separately). -/
def mark_mapped_points (self : Points) : Points :=
  { self with reference_frame := markList self.reference_frame }

end Points

namespace Point

/-- Source: Point::get_nearest — exact nearest reference point from the
tree, then increment that point's mapping counter in the snapshot.  The Rust
unwrap on an empty tree and the snapshot indexing panic are modelled as
none. -/
def get_nearest (p : Point) (kd_tree : List Point) (reference_frame : List Point) :
    Option (Point × List Point) := do
  let nearest_point ← kdNearest p kd_tree
  let r ← reference_frame[nearest_point.get_index]?
  some (nearest_point, reference_frame.set nearest_point.get_index (bump r))

/-- Source: Point::get_nearests — the quantity nearest reference points from
the tree, wrapped as a frame. -/
def get_nearests (p : Point) (kd_tree : List Point) (quantity : ℕ) : Points :=
  Points.of (kdNearests p kd_tree quantity)

/-- The loop body state of Point::get_closest: the running minimum cost, the
running best point and the snapshot.  Each candidate's cost is computed from
the mapping count read from the snapshot at that moment; a new running best
gets its snapshot counter incremented.  Snapshot indexing out of bounds is
none. -/
def scanLoop (p : Point) (penalize_coor penalize_col penalize_mapped : ℚ) :
    List Point → ℚ → Point → List Point → Option (ℚ × Point × List Point)
  | [], min, result, ref => some (min, result, ref)
  | c :: rest, min, result, ref =>
    match ref[c.get_index]? with
    | none => none
    | some rc =>
      let cur := p.get_difference c penalize_coor penalize_col rc.mapping penalize_mapped
      if cur < min then
        scanLoop p penalize_coor penalize_col penalize_mapped rest cur c
          (ref.set c.get_index (bump rc))
      else
        scanLoop p penalize_coor penalize_col penalize_mapped rest min result ref

/-- Source: Point::get_closest — scan the candidate frame with the running
minimum initialised to f32::MAX and the result to the default point, then
increment the chosen point's counter once more. -/
def get_closest (p : Point) (points : Points) (penalize_coor penalize_col : ℚ)
    (reference_frame : List Point) (penalize_mapped : ℚ) :
    Option (Point × List Point) := do
  let (_, result, ref) ← scanLoop p penalize_coor penalize_col penalize_mapped
    points.data f32MAX Point.new_default reference_frame
  let r ← ref[result.get_index]?
  some (result, ref.set result.get_index (bump r))

/-- Source: Point::get_average_closest — average the current point with the
candidate chosen by get_closest. -/
def get_average_closest (p : Point) (points : Points) (penalize_coor penalize_col : ℚ)
    (reference_frame : List Point) (penalize_mapped : ℚ) :
    Option (Point × List Point) :=
  (p.get_closest points penalize_coor penalize_col reference_frame penalize_mapped).map
    (fun pr => (p.get_average pr.1, pr.2))

/-- Source: Point::get_average_closest_from_kdtree — the Policy 2 step for
one current point; the candidate set is the 400 nearest reference points. -/
def get_average_closest_from_kdtree (p : Point) (kd_tree : List Point)
    (penalize_coor penalize_col : ℚ) (reference_frame : List Point)
    (penalize_mapped : ℚ) : Option (Point × List Point) :=
  p.get_average_closest (p.get_nearests kd_tree 400) penalize_coor penalize_col
    reference_frame penalize_mapped

end Point

namespace Points

/-- The in-order traversal of the current frame performed by the map inside
Points::average_points_recovery: each current point queries the tree, the
snapshot mutation threads through, and the averaged outputs are collected in
order. -/
def policy1Loop (tree : List Point) : List Point → List Point → Option (List Point × List Point)
  | [], ref => some ([], ref)
  | p :: rest, ref => do
    let (np, ref1) ← p.get_nearest tree ref
    let (outs, ref2) ← policy1Loop tree rest ref1
    some (p.get_average np :: outs, ref2)

/-- Source: Points::average_points_recovery (Policy 1).  Returns the mutated
current frame together with the pair the Rust function returns: the output
frame and the marked reference snapshot. -/
def average_points_recovery (self points : Points) : Option (Points × Points × Points) := do
  let ref0 := points.data
  let kd_tree := points.data
  let (outs, ref1) ← policy1Loop kd_tree self.data ref0
  let point_data := Points.of outs
  let self1 := { self with reference_frame := ref1 }
  let self2 ← frame_delta self1 point_data
  let self3 := mark_mapped_points self2
  some (self3, point_data, Points.of self3.reference_frame)

/-- The in-order traversal of the current frame performed by the map inside
Points::closest_with_ratio_average_points_recovery. -/
def policy2Loop (tree : List Point) (penalize_coor penalize_col penalize_mapped : ℚ) :
    List Point → List Point → Option (List Point × List Point)
  | [], ref => some ([], ref)
  | p :: rest, ref => do
    let (outp, ref1) ← p.get_average_closest_from_kdtree tree penalize_coor penalize_col
      ref penalize_mapped
    let (outs, ref2) ← policy2Loop tree penalize_coor penalize_col penalize_mapped rest ref1
    some (outp :: outs, ref2)

/-- Source: Points::closest_with_ratio_average_points_recovery (Policy 2). -/
def closest_with_ratio_average_points_recovery (self points : Points)
    (penalize_coor penalize_col penalize_mapped : ℚ) :
    Option (Points × Points × Points) := do
  let ref0 := points.data
  let kd_tree := points.data
  let (outs, ref1) ← policy2Loop kd_tree penalize_coor penalize_col penalize_mapped
    self.data ref0
  let point_data := Points.of outs
  let self1 := { self with reference_frame := ref1 }
  let self2 ← frame_delta self1 point_data
  let self3 := mark_mapped_points self2
  some (self3, point_data, Points.of self3.reference_frame)

/-- Iterated delta operations on one frame (the source permits calling
frame_delta repeatedly; each call appends). -/
def frameDeltas (self : Points) (prevs : List Points) : Option Points :=
  prevs.foldlM frame_delta self

end Points

/-- Modelled from the spec: the Policy 2 scan state in the spec's wording —
the best cost so far, the running best candidate and the snapshot. -/
structure ScanState where
  bestCost : ℚ
  best : Point
  snapshot : List Point

/-- Modelled from the spec: one Policy 2 scan step.  The candidate's cost is
evaluated with the mapping count read from the snapshot at this moment; when
it beats the running best the candidate becomes the new best and its
snapshot counter is incremented by 1. -/
def specScanStep (p : Point) (w_coord w_color w_map : ℚ) (st : ScanState) (c : Point) :
    Option ScanState := do
  let rc ← st.snapshot[c.index]?
  let cost := p.get_difference c w_coord w_color rc.mapping w_map
  if cost < st.bestCost then
    some ⟨cost, c, st.snapshot.set c.index (bump rc)⟩
  else
    some st

/-- Modelled from the spec: the Policy 2 candidate selection — fold the scan
step over the candidates starting from cost f32::MAX and the default point,
then increment the finally chosen candidate's counter by 1 again. -/
def getClosestSpec (p : Point) (cands : List Point) (w_coord w_color w_map : ℚ)
    (reference_frame : List Point) : Option (Point × List Point) := do
  let st ← cands.foldlM (specScanStep p w_coord w_color w_map)
    ⟨f32MAX, Point.new_default, reference_frame⟩
  let chosen ← st.snapshot[st.best.index]?
  some (st.best, st.snapshot.set st.best.index (bump chosen))

/-- The frame invariant that every point's index field equals its position
in the frame. -/
def indexed (l : List Point) : Prop :=
  l.map Point.index = List.range l.length

instance (l : List Point) : Decidable (indexed l) := by
  unfold indexed; infer_instance

/-- Total of the snapshot's mapping counters. -/
def sumMappings (l : List Point) : ℕ :=
  (l.map Point.mapping).sum

/-! Concrete sample data used by witnesses and counterexamples. -/

/-- Sample point at the origin. -/
def pA : Point := ⟨⟨0, 0, 0⟩, ⟨10, 20, 30⟩, 0, 0⟩

/-- Sample point at (1,2,3). -/
def pB : Point := ⟨⟨1, 2, 3⟩, ⟨40, 50, 60⟩, 0, 1⟩

/-- Sample point at (5,5,5). -/
def pC : Point := ⟨⟨5, 5, 5⟩, ⟨7, 7, 7⟩, 0, 0⟩

/-- Sample point at (4,4,4). -/
def pD : Point := ⟨⟨4, 4, 4⟩, ⟨9, 9, 9⟩, 0, 1⟩

/-- A two-point frame. -/
def frameAB : Points := Points.of [pA, pB]

/-- A one-point frame. -/
def frameC : Points := Points.of [pC]

/-- Another two-point frame. -/
def frameCD : Points := Points.of [pC, pD]

/-! Lemmas about the marker. -/

/-- Marking never changes the mapping counter. -/
lemma markPoint_mapping (pt : Point) : (Points.markPoint pt).mapping = pt.mapping := by
  unfold Points.markPoint
  split <;> rfl

/-- Marking one point is idempotent. -/
lemma markPoint_idem (pt : Point) :
    Points.markPoint (Points.markPoint pt) = Points.markPoint pt := by
  by_cases h : pt.mapping = 0
  · simp [Points.markPoint, h]
  · simp [Points.markPoint, h]

/-- Marking the snapshot is idempotent. -/
lemma markList_idem (l : List Point) :
    Points.markList (Points.markList l) = Points.markList l := by
  unfold Points.markList
  rw [List.map_map]
  exact List.map_congr_left (fun pt _ => markPoint_idem pt)

/-- Marking preserves the multiset of mapping counters positionwise. -/
lemma markList_mapping (l : List Point) :
    (Points.markList l).map Point.mapping = l.map Point.mapping := by
  unfold Points.markList
  rw [List.map_map]
  exact List.map_congr_left (fun pt _ => markPoint_mapping pt)

/-- Marking preserves the mapped-point count the report prints. -/
lemma mappedCount_markList (l : List Point) :
    Points.mappedCount (Points.markList l) = Points.mappedCount l := by
  unfold Points.mappedCount Points.markList
  rw [List.countP_map]
  exact List.countP_congr (fun pt _ => by simp [Function.comp, markPoint_mapping pt])

/-- Claim C8: the mapping marker is idempotent — a second run on the same
snapshot leaves every point's color as the first run produced it (points
with mapping 0 are green, others untouched) and reports the same mapped
count and the same total count both times. -/
theorem marker_idempotent (s : Points) :
    Points.mark_mapped_points (Points.mark_mapped_points s) = Points.mark_mapped_points s ∧
    Points.mappedCount (Points.mark_mapped_points s).reference_frame =
      Points.mappedCount s.reference_frame ∧
    (Points.mark_mapped_points s).reference_frame.length = s.reference_frame.length := by
  refine ⟨?_, ?_, ?_⟩
  · simp [Points.mark_mapped_points, markList_idem]
  · simp [Points.mark_mapped_points, mappedCount_markList]
  · simp [Points.mark_mapped_points, Points.markList]

/-! Lemmas about the by-distance ordering helper. -/

/-- The modelled square root is nonnegative. -/
lemma ratSqrt_nonneg (q : ℚ) : 0 ≤ ratSqrt q :=
  div_nonneg (Nat.cast_nonneg _) (Nat.cast_nonneg _)

/-- A squared distance from the origin is nonnegative. -/
lemma distFromOrigin2_nonneg (p : Point) : 0 ≤ p.distFromOrigin2 := by
  unfold Point.distFromOrigin2
  positivity

/-- For nonnegative rationals, strict order transfers to the squares. -/
lemma mul_self_lt_iff {s t : ℚ} (hs : 0 ≤ s) (ht : 0 ≤ t) :
    s < t ↔ s * s < t * t := by
  constructor
  · intro h1
    exact mul_self_lt_mul_self hs h1
  · intro h1
    by_contra h2
    push_neg at h2
    exact absurd (mul_self_le_mul_self ht h2) (not_le.mpr h1)

/-- For nonnegative rationals, equality transfers to the squares. -/
lemma mul_self_eq_iff {s t : ℚ} (hs : 0 ≤ s) (ht : 0 ≤ t) :
    s = t ↔ s * s = t * t := by
  constructor
  · intro h1
    rw [h1]
  · intro h1
    rcases lt_trichotomy s t with h2 | h2 | h2
    · exact absurd ((mul_self_lt_iff hs ht).mp h2) (by rw [h1]; exact lt_irrefl _)
    · exact h2
    · exact absurd ((mul_self_lt_iff ht hs).mp h2) (by rw [h1]; exact lt_irrefl _)

/-- Counterexample to claim C9: at the concrete points (1/4,0,0) and
(1/2,0,0) the helper returns Equal although the first point's Euclidean
distance from the origin (1/4) is strictly smaller than the second's (1/2);
the source forgets the square root on the second operand. -/
theorem partial_cmp_ignores_sqrt_cex :
    Point.partial_cmp ⟨⟨1/4, 0, 0⟩, ⟨0, 0, 0⟩, 0, 0⟩ ⟨⟨1/2, 0, 0⟩, ⟨0, 0, 0⟩, 0, 1⟩ =
      some Ordering.eq ∧
    Point.distFromOrigin2 ⟨⟨1/4, 0, 0⟩, ⟨0, 0, 0⟩, 0, 0⟩ <
      Point.distFromOrigin2 ⟨⟨1/2, 0, 0⟩, ⟨0, 0, 0⟩, 0, 1⟩ := by
  constructor
  · norm_num [Point.partial_cmp, Point.distFromOrigin2, ratSqrt, natSqrtLin, List.range_succ]
  · norm_num [Point.distFromOrigin2]

/-- Claim C9 (amended): the helper compares the first point's distance from
the origin against the SQUARED distance of the second; when the first
point's squared distance admits an exact model square root, the result is
Less exactly when dist(a)^2 < dist(b)^4 (equivalently dist(a) < dist(b)^2),
Greater exactly on the reverse strict inequality, and Equal on ties of that
skewed comparison. -/
theorem partial_cmp_squared_characterization (a b : Point)
    (h : ratSqrt a.distFromOrigin2 * ratSqrt a.distFromOrigin2 = a.distFromOrigin2) :
    (Point.partial_cmp a b = some Ordering.lt ↔
      a.distFromOrigin2 < b.distFromOrigin2 ^ 2) ∧
    (Point.partial_cmp a b = some Ordering.gt ↔
      b.distFromOrigin2 ^ 2 < a.distFromOrigin2) ∧
    (Point.partial_cmp a b = some Ordering.eq ↔
      a.distFromOrigin2 = b.distFromOrigin2 ^ 2) := by
  have hs0 : 0 ≤ ratSqrt a.distFromOrigin2 := ratSqrt_nonneg _
  have ht0 : 0 ≤ b.distFromOrigin2 := distFromOrigin2_nonneg b
  have key : ratSqrt a.distFromOrigin2 < b.distFromOrigin2 ↔
      a.distFromOrigin2 < b.distFromOrigin2 ^ 2 := by
    have k0 := mul_self_lt_iff hs0 ht0
    rw [h, ← pow_two] at k0
    exact k0
  have key2 : b.distFromOrigin2 < ratSqrt a.distFromOrigin2 ↔
      b.distFromOrigin2 ^ 2 < a.distFromOrigin2 := by
    have k0 := mul_self_lt_iff ht0 hs0
    rw [h, ← pow_two] at k0
    exact k0
  have keyeq : ratSqrt a.distFromOrigin2 = b.distFromOrigin2 ↔
      a.distFromOrigin2 = b.distFromOrigin2 ^ 2 := by
    have k0 := mul_self_eq_iff hs0 ht0
    rw [h, ← pow_two] at k0
    exact k0
  rcases lt_trichotomy (ratSqrt a.distFromOrigin2) b.distFromOrigin2 with h1 | h1 | h1
  · have hcmp : Point.partial_cmp a b = some Ordering.lt := by
      simp [Point.partial_cmp, h1]
    have hn2 : ¬ b.distFromOrigin2 ^ 2 < a.distFromOrigin2 :=
      fun hh => absurd (key2.mpr hh) (not_lt.mpr (le_of_lt h1))
    have hn3 : ¬ a.distFromOrigin2 = b.distFromOrigin2 ^ 2 :=
      fun hh => absurd (keyeq.mpr hh) (ne_of_lt h1)
    rw [hcmp]
    refine ⟨?_, ?_, ?_⟩ <;> simp [key.mp h1, hn2, hn3]
  · have hcmp : Point.partial_cmp a b = some Ordering.eq := by
      simp [Point.partial_cmp, h1, lt_irrefl]
    have hn1 : ¬ a.distFromOrigin2 < b.distFromOrigin2 ^ 2 :=
      fun hh => absurd (key.mpr hh) (by rw [h1]; exact lt_irrefl _)
    have hn2 : ¬ b.distFromOrigin2 ^ 2 < a.distFromOrigin2 :=
      fun hh => absurd (key2.mpr hh) (by rw [h1]; exact lt_irrefl _)
    rw [hcmp]
    refine ⟨?_, ?_, ?_⟩ <;> simp [keyeq.mp h1, hn1, hn2]
  · have hcmp : Point.partial_cmp a b = some Ordering.gt := by
      simp [Point.partial_cmp, not_lt.mpr (le_of_lt h1), h1]
    have hn1 : ¬ a.distFromOrigin2 < b.distFromOrigin2 ^ 2 :=
      fun hh => absurd (key.mpr hh) (not_lt.mpr (le_of_lt h1))
    have hn3 : ¬ a.distFromOrigin2 = b.distFromOrigin2 ^ 2 :=
      fun hh => absurd (keyeq.mpr hh) (ne_of_gt h1)
    rw [hcmp]
    refine ⟨?_, ?_, ?_⟩ <;> simp [key2.mp h1, hn1, hn3]

/-- Witness for the amended claim C9 at the points (3,0,0) and (2,0,0):
the exactness hypothesis holds and the characterization yields Less since
9 < 16. -/
theorem partial_cmp_squared_characterization_witness :
    Point.partial_cmp ⟨⟨3, 0, 0⟩, ⟨0, 0, 0⟩, 0, 0⟩ ⟨⟨2, 0, 0⟩, ⟨0, 0, 0⟩, 0, 1⟩ =
      some Ordering.lt := by
  have h : ratSqrt (Point.distFromOrigin2 ⟨⟨3, 0, 0⟩, ⟨0, 0, 0⟩, 0, 0⟩) *
      ratSqrt (Point.distFromOrigin2 ⟨⟨3, 0, 0⟩, ⟨0, 0, 0⟩, 0, 0⟩) =
      Point.distFromOrigin2 ⟨⟨3, 0, 0⟩, ⟨0, 0, 0⟩, 0, 0⟩ := by
    norm_num [Point.distFromOrigin2, ratSqrt, natSqrtLin, List.range_succ]
  exact ((partial_cmp_squared_characterization _ _ h).1).mpr
    (by norm_num [Point.distFromOrigin2])

/-! Lemmas about the frame-delta producer. -/

/-- Anatomy of a successful frame_delta call: the bound that made the Rust
indexing safe, and the exact shape of the result. -/
lemma frame_delta_some_shape {self prev g : Points}
    (h : Points.frame_delta self prev = some g) :
    prev.data.length ≤ self.data.length ∧
    g.data = self.data ∧ g.reference_frame = self.reference_frame ∧
    g.delta_pos_vector = self.delta_pos_vector ++
      List.zipWith posDeltaEntry self.data prev.data ∧
    g.delta_colours = self.delta_colours ++
      List.zipWith colDeltaEntry self.data prev.data := by
  unfold Points.frame_delta at h
  split at h
  case isTrue hle =>
    obtain rfl := Option.some.inj h
    exact ⟨hle, rfl, rfl, rfl, rfl⟩
  case isFalse hle =>
    exact absurd h (by simp)

/-- frame_delta fails exactly when prev is strictly longer than the
receiver's data. -/
lemma frame_delta_isNone_iff (self prev : Points) :
    Points.frame_delta self prev = none ↔ self.data.length < prev.data.length := by
  unfold Points.frame_delta
  split
  case isTrue hle =>
    simp
    omega
  case isFalse hle =>
    simp
    omega

/-- Claim C1: a successful delta operation over an output frame and a
reference snapshot of common length N produces, for every k below N,
delta entries equal to the componentwise differences of the output and
snapshot coordinates and (promoted, signed) colors at position k; the
position round-trip output = snapshot + delta holds exactly. -/
theorem frame_delta_pointwise_correct (output snapshot output' : Points)
    (hlen : output.data.length = snapshot.data.length)
    (hrun : Points.frame_delta output snapshot = some output') :
    ∀ k, k < snapshot.data.length →
      ∃ o s dp dc,
        output.data[k]? = some o ∧ snapshot.data[k]? = some s ∧
        (output'.delta_pos_vector.drop output.delta_pos_vector.length)[k]? = some dp ∧
        (output'.delta_colours.drop output.delta_colours.length)[k]? = some dc ∧
        dp = (o.point_coord.x - s.point_coord.x, o.point_coord.y - s.point_coord.y,
              o.point_coord.z - s.point_coord.z) ∧
        dc = ((o.point_color.red : ℚ) - (s.point_color.red : ℚ),
              (o.point_color.green : ℚ) - (s.point_color.green : ℚ),
              (o.point_color.blue : ℚ) - (s.point_color.blue : ℚ)) ∧
        o.point_coord.x = s.point_coord.x + dp.1 ∧
        o.point_coord.y = s.point_coord.y + dp.2.1 ∧
        o.point_coord.z = s.point_coord.z + dp.2.2 := by
  intro k hk
  obtain ⟨hle, hdata, href, hdp, hdc⟩ := frame_delta_some_shape hrun
  have hko : k < output.data.length := by omega
  refine ⟨output.data[k], snapshot.data[k], _, _,
    List.getElem?_eq_getElem hko, List.getElem?_eq_getElem hk, ?_, ?_, rfl, rfl, ?_, ?_, ?_⟩
  · rw [hdp, List.drop_left]
    have hkz : k < (List.zipWith posDeltaEntry output.data snapshot.data).length := by
      rw [List.length_zipWith]
      omega
    rw [List.getElem?_eq_getElem hkz, List.getElem_zipWith]
    rfl
  · rw [hdc, List.drop_left]
    have hkz : k < (List.zipWith colDeltaEntry output.data snapshot.data).length := by
      rw [List.length_zipWith]
      omega
    rw [List.getElem?_eq_getElem hkz, List.getElem_zipWith]
    rfl
  · ring
  · ring
  · ring

/-- Witness for claim C1 at two concrete two-point frames. -/
theorem frame_delta_pointwise_correct_witness :
    ∃ g, Points.frame_delta frameAB frameCD = some g ∧
      ∃ o s dp dc,
        frameAB.data[0]? = some o ∧ frameCD.data[0]? = some s ∧
        (g.delta_pos_vector.drop frameAB.delta_pos_vector.length)[0]? = some dp ∧
        (g.delta_colours.drop frameAB.delta_colours.length)[0]? = some dc ∧
        dp = (o.point_coord.x - s.point_coord.x, o.point_coord.y - s.point_coord.y,
              o.point_coord.z - s.point_coord.z) ∧
        dc = ((o.point_color.red : ℚ) - (s.point_color.red : ℚ),
              (o.point_color.green : ℚ) - (s.point_color.green : ℚ),
              (o.point_color.blue : ℚ) - (s.point_color.blue : ℚ)) ∧
        o.point_coord.x = s.point_coord.x + dp.1 ∧
        o.point_coord.y = s.point_coord.y + dp.2.1 ∧
        o.point_coord.z = s.point_coord.z + dp.2.2 := by
  refine ⟨_, rfl, ?_⟩
  exact frame_delta_pointwise_correct frameAB frameCD _ (by rfl) rfl 0 (by norm_num [frameCD, Points.of])

/-- Counterexample to claim C3: with an output frame of length 2 and a prev
frame of length 1 the delta operation does NOT fail — it silently processes
the shorter sequence, appending exactly one entry to each delta vector. -/
theorem frame_delta_shorter_prev_silently_ok :
    frameAB.data.length ≠ frameC.data.length ∧
    ∃ g, Points.frame_delta frameAB frameC = some g ∧
      g.delta_pos_vector.length = 1 ∧ g.delta_colours.length = 1 := by
  constructor
  · norm_num [frameAB, frameC, Points.of]
  · refine ⟨_, rfl, ?_, ?_⟩ <;>
      norm_num [Points.frame_delta, frameAB, frameC, Points.of]

/-- Claim C3 (amended): frame_delta fails (the Rust indexing panics) exactly
when the prev argument is strictly longer than the receiver's data; when
prev is no longer than the data, the operation succeeds and silently
processes only the first prev-length positions, appending prev-many entries
to each delta sequence. -/
theorem frame_delta_length_behavior (self prev : Points) :
    (Points.frame_delta self prev = none ↔ self.data.length < prev.data.length) ∧
    (∀ g, Points.frame_delta self prev = some g →
      g.delta_pos_vector.length = self.delta_pos_vector.length + prev.data.length ∧
      g.delta_colours.length = self.delta_colours.length + prev.data.length) := by
  constructor
  · exact frame_delta_isNone_iff self prev
  · intro g hg
    obtain ⟨hle, _, _, hdp, hdc⟩ := frame_delta_some_shape hg
    constructor
    · rw [hdp, List.length_append, List.length_zipWith]
      omega
    · rw [hdc, List.length_append, List.length_zipWith]
      omega

/-- Witness for the amended claim C3 at concrete frames of lengths 2 and 1. -/
theorem frame_delta_length_behavior_witness :
    ∃ g, Points.frame_delta frameAB frameC = some g ∧
      g.delta_pos_vector.length = frameAB.delta_pos_vector.length + frameC.data.length := by
  refine ⟨_, rfl, ((frame_delta_length_behavior frameAB frameC).2 _ rfl).1⟩

/-- Lengths accumulated by iterated frame_delta calls. -/
lemma frameDeltas_length (prevs : List Points) : ∀ f g,
    Points.frameDeltas f prevs = some g →
    g.delta_pos_vector.length =
      f.delta_pos_vector.length + (prevs.map (fun q => q.data.length)).sum ∧
    g.delta_colours.length =
      f.delta_colours.length + (prevs.map (fun q => q.data.length)).sum := by
  induction prevs with
  | nil =>
    intro f g hg
    unfold Points.frameDeltas at hg
    simp only [List.foldlM_nil] at hg
    obtain rfl := Option.some.inj hg
    simp
  | cons p ps ih =>
    intro f g hg
    unfold Points.frameDeltas at hg
    rw [List.foldlM_cons] at hg
    cases hstep : Points.frame_delta f p with
    | none =>
      rw [hstep] at hg
      simp at hg
    | some f1 =>
      rw [hstep] at hg
      simp only [Option.bind_eq_bind, Option.some_bind] at hg
      obtain ⟨h1, h2⟩ := ih f1 g hg
      obtain ⟨hle, _, _, hdp, hdc⟩ := frame_delta_some_shape hstep
      constructor
      · rw [h1, hdp, List.length_append, List.length_zipWith, List.map_cons, List.sum_cons]
        omega
      · rw [h2, hdc, List.length_append, List.length_zipWith, List.map_cons, List.sum_cons]
        omega

/-- Claim C10: frame_delta is append-only — a successful call leaves the
data and the reference snapshot untouched and extends each delta sequence by
exactly one entry per point of the prev argument; consequently n iterated
delta operations leave each delta sequence longer by the sum of the prev
lengths, so a second correspondence on the same frame accumulates. -/
theorem frame_delta_append_only :
    (∀ f prev g, Points.frame_delta f prev = some g →
      g.data = f.data ∧ g.reference_frame = f.reference_frame ∧
      (∃ np, g.delta_pos_vector = f.delta_pos_vector ++ np ∧
        np.length = prev.data.length) ∧
      (∃ nc, g.delta_colours = f.delta_colours ++ nc ∧
        nc.length = prev.data.length)) ∧
    (∀ prevs f g, Points.frameDeltas f prevs = some g →
      g.delta_pos_vector.length =
        f.delta_pos_vector.length + (prevs.map (fun q => q.data.length)).sum ∧
      g.delta_colours.length =
        f.delta_colours.length + (prevs.map (fun q => q.data.length)).sum) := by
  constructor
  · intro f prev g hg
    obtain ⟨hle, hdata, href, hdp, hdc⟩ := frame_delta_some_shape hg
    refine ⟨hdata, href, ⟨_, hdp, ?_⟩, ⟨_, hdc, ?_⟩⟩
    · rw [List.length_zipWith]
      omega
    · rw [List.length_zipWith]
      omega
  · intro prevs f g hg
    exact frameDeltas_length prevs f g hg

/-- Witness for claim C10: two iterated delta operations with one-point prev
frames extend the delta sequences by two entries in total. -/
theorem frame_delta_append_only_witness :
    ∃ g, Points.frameDeltas frameAB [frameC, frameC] = some g ∧
      g.delta_pos_vector.length = frameAB.delta_pos_vector.length +
        ([frameC, frameC].map (fun q => q.data.length)).sum := by
  refine ⟨_, rfl, (frame_delta_append_only.2 [frameC, frameC] frameAB _ rfl).1⟩

/-! The Policy 2 scan agrees with the specification's description. -/

/-- The source loop of get_closest coincides with folding the
specification's scan step. -/
lemma scanLoop_eq_spec (p : Point) (wc wl wm : ℚ) (cands : List Point) :
    ∀ min res ref, Point.scanLoop p wc wl wm cands min res ref =
      (cands.foldlM (specScanStep p wc wl wm) ⟨min, res, ref⟩).map
        (fun st => (st.bestCost, st.best, st.snapshot)) := by
  induction cands with
  | nil =>
    intro min res ref
    simp [Point.scanLoop, List.foldlM_nil]
  | cons c cs ih =>
    intro min res ref
    rw [List.foldlM_cons]
    unfold Point.scanLoop specScanStep
    cases h : ref[c.index]? with
    | none =>
      simp [Point.get_index, h]
    | some rc =>
      simp only [Point.get_index, h, Option.bind_eq_bind, Option.some_bind]
      split
      case isTrue hlt =>
        exact ih _ _ _
      case isFalse hlt =>
        exact ih _ _ _

/-- Claim C2: Policy 2's candidate selection follows the specified scan —
candidates are scanned in order, each cost is evaluated with the mapping
count read from the snapshot at that moment, every new running best has its
snapshot counter incremented by 1, and after the scan the finally chosen
candidate's counter is incremented by 1 again.  The source function equals
the specification-worded fold. -/
theorem get_closest_matches_spec (p : Point) (points : Points)
    (penalize_coor penalize_col : ℚ) (reference_frame : List Point)
    (penalize_mapped : ℚ) :
    Point.get_closest p points penalize_coor penalize_col reference_frame
      penalize_mapped =
    getClosestSpec p points.data penalize_coor penalize_col penalize_mapped
      reference_frame := by
  unfold Point.get_closest getClosestSpec
  rw [scanLoop_eq_spec]
  cases h : points.data.foldlM
      (specScanStep p penalize_coor penalize_col penalize_mapped)
      ⟨f32MAX, Point.new_default, reference_frame⟩ with
  | none => simp [h]
  | some st => simp [h, Point.get_index]

/-! Lemmas about the modelled kd-tree queries. -/

/-- A nearest-neighbor result is a member of the tree. -/
lemma kdNearest_mem {q c : Point} : ∀ {tree : List Point},
    kdNearest q tree = some c → c ∈ tree := by
  intro tree
  induction tree with
  | nil => intro h; exact absurd h (by simp [kdNearest])
  | cons hd tl ih =>
    intro h
    rw [kdNearest] at h
    cases hrec : kdNearest q tl with
    | none =>
      simp only [hrec] at h
      obtain rfl := Option.some.inj h
      exact List.mem_cons_self _ _
    | some b =>
      simp only [hrec] at h
      split at h
      · obtain rfl := Option.some.inj h
        exact List.mem_cons_self _ _
      · obtain rfl := Option.some.inj h
        exact List.mem_cons_of_mem _ (ih hrec)

/-- The nearest-neighbor query succeeds on a nonempty tree. -/
lemma kdNearest_isSome {q : Point} : ∀ {tree : List Point}, tree ≠ [] →
    ∃ c, kdNearest q tree = some c := by
  intro tree
  induction tree with
  | nil => intro h; exact absurd rfl h
  | cons hd tl ih =>
    intro _
    rw [kdNearest]
    cases hrec : kdNearest q tl with
    | none =>
      simp only [hrec]
      exact ⟨hd, rfl⟩
    | some b =>
      simp only [hrec]
      split
      · exact ⟨hd, rfl⟩
      · exact ⟨b, rfl⟩

/-- Inserting into the sorted candidate list adds one element. -/
lemma insertByDist_length (q c : Point) : ∀ (l : List Point),
    (insertByDist q c l).length = l.length + 1 := by
  intro l
  induction l with
  | nil => rfl
  | cons b rest ih =>
    rw [insertByDist]
    split
    · rfl
    · simp [ih]

/-- Sorting the candidate list preserves its length. -/
lemma sortByDist_length (q : Point) : ∀ (l : List Point),
    (sortByDist q l).length = l.length := by
  intro l
  induction l with
  | nil => rfl
  | cons c rest ih =>
    rw [sortByDist, insertByDist_length, ih]
    rfl

/-- Members of the insertion result come from the inserted element or the
original list. -/
lemma insertByDist_mem {x q c : Point} : ∀ {l : List Point},
    x ∈ insertByDist q c l → x = c ∨ x ∈ l := by
  intro l
  induction l with
  | nil =>
    intro h
    rw [insertByDist] at h
    simp at h
    exact Or.inl h
  | cons b rest ih =>
    intro h
    rw [insertByDist] at h
    split at h
    · rcases List.mem_cons.mp h with h1 | h1
      · exact Or.inl h1
      · exact Or.inr h1
    · rcases List.mem_cons.mp h with h1 | h1
      · exact Or.inr (h1 ▸ List.mem_cons_self _ _)
      · rcases ih h1 with h2 | h2
        · exact Or.inl h2
        · exact Or.inr (List.mem_cons_of_mem _ h2)

/-- Members of the sorted candidate list come from the original list. -/
lemma sortByDist_mem {x q : Point} : ∀ {l : List Point},
    x ∈ sortByDist q l → x ∈ l := by
  intro l
  induction l with
  | nil => intro h; exact absurd h (by simp [sortByDist])
  | cons c rest ih =>
    intro h
    rw [sortByDist] at h
    rcases insertByDist_mem h with h1 | h1
    · exact h1 ▸ List.mem_cons_self _ _
    · exact List.mem_cons_of_mem _ (ih h1)

/-- The k-nearest result has min k N entries. -/
lemma kdNearests_length (q : Point) (tree : List Point) (k : ℕ) :
    (kdNearests q tree k).length = min k tree.length := by
  rw [kdNearests, List.length_take, sortByDist_length]

/-- Every k-nearest candidate is a member of the tree. -/
lemma kdNearests_mem {x q : Point} {tree : List Point} {k : ℕ}
    (h : x ∈ kdNearests q tree k) : x ∈ tree :=
  sortByDist_mem (List.take_subset k _ h)

/-! Lemmas about the index invariant and the mapping counters. -/

/-- Pointwise form of the index invariant. -/
lemma indexed_getElem {l : List Point} (h : indexed l) {k : ℕ}
    (hk : k < l.length) : l[k].index = k := by
  unfold indexed at h
  have h1 : (l.map Point.index)[k]? = (List.range l.length)[k]? := by rw [h]
  rw [List.getElem?_map, List.getElem?_eq_getElem hk,
    List.getElem?_range hk] at h1
  exact Option.some.inj h1

/-- Under the index invariant, members carry in-range indices. -/
lemma indexed_mem_lt {l : List Point} (h : indexed l) {c : Point}
    (hc : c ∈ l) : c.index < l.length := by
  obtain ⟨k, hk, rfl⟩ := List.mem_iff_getElem.mp hc
  rw [indexed_getElem h hk]
  exact hk

/-- Setting position i of a list of naturals trades the old entry for the
new one inside the sum. -/
lemma sum_set_add : ∀ (l : List ℕ) (i : ℕ) (a b : ℕ), l[i]? = some b →
    (l.set i a).sum + b = l.sum + a := by
  intro l
  induction l with
  | nil => intro i a b h; simp at h
  | cons x xs ih =>
    intro i a b h
    cases i with
    | zero =>
      simp only [List.getElem?_cons_zero] at h
      obtain rfl := Option.some.inj h
      simp [List.sum_cons]
      omega
    | succ i =>
      simp only [List.getElem?_cons_succ] at h
      have h1 := ih i a b h
      simp only [List.set_cons_succ, List.sum_cons]
      omega

/-- As long as the mapping total has room below the u16 bound, bumping a
snapshot entry cannot wrap (the entry is at most the total) and raises the
total by exactly one. -/
lemma sumMappings_set_bump {l : List Point} {i : ℕ} {x : Point}
    (h : l[i]? = some x) (hb : sumMappings l < 65535) :
    sumMappings (l.set i (bump x)) = sumMappings l + 1 := by
  have hmem : x ∈ l := by
    obtain ⟨hlt, heq⟩ := List.getElem?_eq_some.mp h
    exact heq ▸ List.getElem_mem hlt
  have hle : x.mapping ≤ sumMappings l :=
    List.single_le_sum (fun y _ => Nat.zero_le y) _
      (List.mem_map_of_mem Point.mapping hmem)
  have h3 : (bump x).mapping = x.mapping + 1 := by
    simp only [bump]
    exact Nat.mod_eq_of_lt (by omega)
  unfold sumMappings
  rw [List.map_set]
  have h1 : (l.map Point.mapping)[i]? = some x.mapping := by
    rw [List.getElem?_map, h]
    rfl
  have h2 := sum_set_add (l.map Point.mapping) i (bump x).mapping x.mapping h1
  omega

/-- Marking the snapshot preserves the mapping total. -/
lemma sumMappings_markList (l : List Point) :
    sumMappings (Points.markList l) = sumMappings l := by
  unfold sumMappings
  rw [markList_mapping]

/-- An all-zero snapshot has mapping total zero. -/
lemma sumMappings_zero {l : List Point} (h : ∀ q ∈ l, q.mapping = 0) :
    sumMappings l = 0 := by
  unfold sumMappings
  refine List.sum_eq_zero ?_
  intro x hx
  obtain ⟨q, hq, rfl⟩ := List.mem_map.mp hx
  exact h q hq

/-! Lemmas about the Policy 1 traversal. -/

/-- A Policy 1 step on a nonempty tree with in-range candidate indices and
a mapping total below the u16 bound succeeds, returns a tree member, keeps
the snapshot length and raises the mapping total by one (no wrap). -/
lemma get_nearest_spec (p : Point) {tree ref : List Point}
    (hne : tree ≠ []) (hidx : ∀ c ∈ tree, c.index < ref.length)
    (hsum : sumMappings ref < 65535) :
    ∃ np ref1, Point.get_nearest p tree ref = some (np, ref1) ∧
      np ∈ tree ∧ ref1.length = ref.length ∧
      sumMappings ref1 = sumMappings ref + 1 := by
  obtain ⟨np, hnp⟩ := kdNearest_isSome (q := p) hne
  have hmem := kdNearest_mem hnp
  have hi : np.index < ref.length := hidx np hmem
  have hr : ref[np.index]? = some ref[np.index] := List.getElem?_eq_getElem hi
  refine ⟨np, ref.set np.index (bump ref[np.index]), ?_, hmem, ?_, ?_⟩
  · simp [Point.get_nearest, hnp, Point.get_index, hr]
  · exact List.length_set ref _ _
  · exact sumMappings_set_bump hr hsum

/-- The Policy 1 traversal over a nonempty tree with in-range indices
succeeds when the mapping total plus the number of pending increments stays
within the u16 range; it keeps the snapshot length, adds the current length
to the mapping total, and emits one averaged output per current point in
order. -/
lemma policy1Loop_total (tree : List Point) (hne : tree ≠ []) :
    ∀ (cur ref : List Point), (∀ c ∈ tree, c.index < ref.length) →
    sumMappings ref + cur.length ≤ 65535 →
    ∃ outs ref2, Points.policy1Loop tree cur ref = some (outs, ref2) ∧
      ref2.length = ref.length ∧
      sumMappings ref2 = sumMappings ref + cur.length ∧
      outs.length = cur.length := by
  intro cur
  induction cur with
  | nil =>
    intro ref _ _
    exact ⟨[], ref, rfl, rfl, by simp, rfl⟩
  | cons q rest ih =>
    intro ref hidx hroom
    simp only [List.length_cons] at hroom
    obtain ⟨np, ref1, hstep, hmem, hlen1, hsum1⟩ :=
      get_nearest_spec q hne hidx (by omega)
    have hidx1 : ∀ c ∈ tree, c.index < ref1.length := by
      intro c hc
      rw [hlen1]
      exact hidx c hc
    obtain ⟨outs, ref2, hloop, hlen2, hsum2, houts⟩ := ih ref1 hidx1 (by omega)
    refine ⟨q.get_average np :: outs, ref2, ?_, ?_, ?_, ?_⟩
    · simp [Points.policy1Loop, hstep, hloop]
    · rw [hlen2, hlen1]
    · rw [hsum2, hsum1, List.length_cons]
      omega
    · simp [houts]

/-- Shape of a successful Policy 1 traversal: one output per current point,
each the average of that current point with some counterpart. -/
lemma policy1Loop_outputs (tree : List Point) :
    ∀ (cur ref outs ref2 : List Point),
    Points.policy1Loop tree cur ref = some (outs, ref2) →
    outs.length = cur.length ∧
    ∀ (k : ℕ) (o : Point), outs[k]? = some o → ∃ (q c : Point), cur[k]? = some q ∧
      o = q.get_average c := by
  intro cur
  induction cur with
  | nil =>
    intro ref outs ref2 h
    simp only [Points.policy1Loop, Option.some.injEq, Prod.mk.injEq] at h
    obtain ⟨h1, h2⟩ := h
    subst h1
    exact ⟨rfl, by intro k o hk; simp at hk⟩
  | cons q rest ih =>
    intro ref outs ref2 h
    simp only [Points.policy1Loop, Option.bind_eq_bind, Option.bind_eq_some] at h
    obtain ⟨⟨np, ref1⟩, hstep, h⟩ := h
    obtain ⟨⟨outs1, ref21⟩, hloop, heq⟩ := h
    simp only [Option.some.injEq, Prod.mk.injEq] at heq
    obtain ⟨heq1, heq2⟩ := heq
    subst heq1
    subst heq2
    obtain ⟨hlen, hout⟩ := ih ref1 outs1 ref21 hloop
    constructor
    · simp [hlen]
    · intro k o hk
      cases k with
      | zero =>
        simp only [List.getElem?_cons_zero] at hk
        exact ⟨q, np, by simp, (Option.some.inj hk).symm⟩
      | succ k =>
        simp only [List.getElem?_cons_succ] at hk
        obtain ⟨q1, c1, hq1, ho1⟩ := hout k o hk
        exact ⟨q1, c1, by simpa using hq1, ho1⟩

/-- Shape of a successful Policy 2 traversal: one output per current point,
each the average of that current point with some counterpart. -/
lemma policy2Loop_outputs (tree : List Point) (wc wl wm : ℚ) :
    ∀ (cur ref outs ref2 : List Point),
    Points.policy2Loop tree wc wl wm cur ref = some (outs, ref2) →
    outs.length = cur.length ∧
    ∀ (k : ℕ) (o : Point), outs[k]? = some o → ∃ (q c : Point), cur[k]? = some q ∧
      o = q.get_average c := by
  intro cur
  induction cur with
  | nil =>
    intro ref outs ref2 h
    simp only [Points.policy2Loop, Option.some.injEq, Prod.mk.injEq] at h
    obtain ⟨h1, h2⟩ := h
    subst h1
    exact ⟨rfl, by intro k o hk; simp at hk⟩
  | cons q rest ih =>
    intro ref outs ref2 h
    simp only [Points.policy2Loop, Option.bind_eq_bind, Option.bind_eq_some] at h
    obtain ⟨⟨outp, ref1⟩, hstep, h⟩ := h
    obtain ⟨⟨outs1, ref21⟩, hloop, heq⟩ := h
    simp only [Option.some.injEq, Prod.mk.injEq] at heq
    obtain ⟨heq1, heq2⟩ := heq
    subst heq1
    subst heq2
    obtain ⟨c, refc, hc, houteq, hrefeq⟩ : ∃ (c : Point) (refc : List Point),
        Point.get_closest q (q.get_nearests tree 400) wc wl ref wm = some (c, refc) ∧
        outp = q.get_average c ∧ ref1 = refc := by
      unfold Point.get_average_closest_from_kdtree Point.get_average_closest at hstep
      obtain ⟨⟨c, refc⟩, hc, heq3⟩ := Option.map_eq_some'.mp hstep
      obtain ⟨he1, he2⟩ := Prod.mk.inj heq3
      exact ⟨c, refc, hc, he1.symm, he2.symm⟩
    obtain ⟨hlen, hout⟩ := ih ref1 outs1 ref21 hloop
    constructor
    · simp [hlen]
    · intro k o hk
      cases k with
      | zero =>
        simp only [List.getElem?_cons_zero] at hk
        exact ⟨q, c, by simp, by rw [← Option.some.inj hk, houteq]⟩
      | succ k =>
        simp only [List.getElem?_cons_succ] at hk
        obtain ⟨q1, c1, hq1, ho1⟩ := hout k o hk
        exact ⟨q1, c1, by simpa using hq1, ho1⟩

/-- The n-fold counter bump, tracking one reference point through repeated
selection. -/
def bumpIter : ℕ → Point → Point
  | 0, x => x
  | n + 1, x => bump (bumpIter n x)

/-- Iterating the bump commutes with a leading bump. -/
lemma bumpIter_shift (x : Point) : ∀ n, bumpIter n (bump x) = bumpIter (n + 1) x := by
  intro n
  induction n with
  | zero => rfl
  | succ n ih =>
    show bump (bumpIter n (bump x)) = bump (bumpIter (n + 1) x)
    rw [ih]

/-- The counter after n bumps is the wrapped sum: the u16 discards full
multiples of 2^16. -/
lemma bumpIter_mapping (x : Point) (hx : x.mapping < 65536) :
    ∀ n, (bumpIter n x).mapping = (x.mapping + n) % 65536 := by
  intro n
  induction n with
  | zero =>
    simp only [bumpIter]
    omega
  | succ n ih =>
    have h1 : (bumpIter (n + 1) x).mapping = ((bumpIter n x).mapping + 1) % 65536 := rfl
    rw [h1, ih]
    omega

/-- Policy 1 over a one-point reference: every current point selects that
point, so its counter is bumped once per current point, wrapping as a u16. -/
lemma policy1Loop_single (p r0 : Point) (hr : r0.index = 0) :
    ∀ (n : ℕ) (x : Point),
    Points.policy1Loop [r0] (List.replicate n p) [x] =
      some (List.replicate n (p.get_average r0), [bumpIter n x]) := by
  intro n
  induction n with
  | zero =>
    intro x
    simp [Points.policy1Loop, bumpIter, List.replicate]
  | succ n ih =>
    intro x
    rw [List.replicate_succ]
    have hstep : p.get_nearest [r0] [x] = some (r0, [bump x]) := by
      simp [Point.get_nearest, kdNearest, Point.get_index, hr]
    simp [Points.policy1Loop, hstep, ih (bump x), bumpIter_shift, List.replicate_succ]

/-- A full Policy 1 run over a one-point reference and a current frame of n
identical points: the run completes and the single counter holds the n-fold
wrapped increment, so the snapshot counters sum to (initial + n) mod 2^16. -/
lemma policy1_single_run (cur ref : Points) (p r0 : Point) (n : ℕ)
    (hcur : cur.data = List.replicate n p) (href0 : ref.data = [r0])
    (hr : r0.index = 0) (hm : r0.mapping < 65536) :
    ∃ s1 out snap, Points.average_points_recovery cur ref = some (s1, out, snap) ∧
      sumMappings snap.data = (r0.mapping + n) % 65536 := by
  have hloop : Points.policy1Loop ref.data cur.data ref.data =
      some (List.replicate n (p.get_average r0), [bumpIter n r0]) := by
    rw [hcur, href0]
    exact policy1Loop_single p r0 hr n r0
  have hfd : ∃ g, Points.frame_delta { cur with reference_frame := [bumpIter n r0] }
      (Points.of (List.replicate n (p.get_average r0))) = some g := by
    cases hpd : Points.frame_delta { cur with reference_frame := [bumpIter n r0] }
        (Points.of (List.replicate n (p.get_average r0))) with
    | none =>
      have := (frame_delta_isNone_iff _ _).mp hpd
      simp [Points.of, hcur] at this
    | some g => exact ⟨g, rfl⟩
  obtain ⟨g, hfd⟩ := hfd
  obtain ⟨hle, hdata, hrefg, hdp, hdc⟩ := frame_delta_some_shape hfd
  unfold Points.average_points_recovery
  dsimp only
  rw [hloop]
  simp only [Option.bind_eq_bind, Option.some_bind]
  rw [hfd]
  simp only [Option.some_bind]
  refine ⟨_, _, _, rfl, ?_⟩
  have hmark : (Points.mark_mapped_points g).reference_frame =
      Points.markList g.reference_frame := rfl
  simp only [Points.of, hmark, sumMappings_markList]
  rw [hrefg]
  simp [sumMappings, bumpIter_mapping r0 hm n]

/-- Counterexample to claim C5: with a one-point reference (fresh counter,
index 0) and a current frame of 65536 identical points, Policy 1 completes
but the u16 counter wraps to 0, so the snapshot counters sum to 0, not to
the current frame length 65536. -/
theorem policy1_counter_wraps_cex :
    ∃ s1 out snap,
      Points.average_points_recovery
        (Points.of (List.replicate 65536 (⟨⟨0, 0, 0⟩, ⟨7, 7, 7⟩, 0, 0⟩ : Point)))
        (Points.of [(⟨⟨0, 0, 0⟩, ⟨7, 7, 7⟩, 0, 0⟩ : Point)]) = some (s1, out, snap) ∧
      (Points.of (List.replicate 65536
        (⟨⟨0, 0, 0⟩, ⟨7, 7, 7⟩, 0, 0⟩ : Point))).data.length = 65536 ∧
      sumMappings snap.data = 0 := by
  obtain ⟨s1, out, snap, hrun, hsum⟩ := policy1_single_run
    (Points.of (List.replicate 65536 (⟨⟨0, 0, 0⟩, ⟨7, 7, 7⟩, 0, 0⟩ : Point)))
    (Points.of [(⟨⟨0, 0, 0⟩, ⟨7, 7, 7⟩, 0, 0⟩ : Point)])
    (⟨⟨0, 0, 0⟩, ⟨7, 7, 7⟩, 0, 0⟩ : Point) (⟨⟨0, 0, 0⟩, ⟨7, 7, 7⟩, 0, 0⟩ : Point)
    65536 rfl rfl rfl (by norm_num)
  refine ⟨s1, out, snap, hrun, List.length_replicate 65536 _, ?_⟩
  rw [hsum]
  norm_num

/-- Claim C5 (amended): after Policy 1 over a nonempty reference frame whose
points carry fresh (zero) mapping counters and position-consistent indices,
and whose current frame has fewer than 2^16 points (so that no u16 counter
wraps), the mapping counters of the returned snapshot sum to the current
frame length — each current point contributes exactly one increment. -/
theorem policy1_mapping_conservation (cur ref : Points)
    (hne : ref.data ≠ []) (hidx : indexed ref.data)
    (hzero : ∀ q ∈ ref.data, q.mapping = 0)
    (hsmall : cur.data.length < 65536) :
    ∃ s1 out snap, Points.average_points_recovery cur ref = some (s1, out, snap) ∧
      sumMappings snap.data = cur.data.length := by
  have hbound : ∀ c ∈ ref.data, c.index < ref.data.length :=
    fun c hc => indexed_mem_lt hidx hc
  have hroom : sumMappings ref.data + cur.data.length ≤ 65535 := by
    rw [sumMappings_zero hzero]
    omega
  obtain ⟨outs, ref2, hloop, hlen2, hsum2, houts⟩ :=
    policy1Loop_total ref.data hne cur.data ref.data hbound hroom
  have hfd : ∃ g, Points.frame_delta { cur with reference_frame := ref2 }
      (Points.of outs) = some g := by
    cases hpd : Points.frame_delta { cur with reference_frame := ref2 }
        (Points.of outs) with
    | none =>
      have := (frame_delta_isNone_iff _ _).mp hpd
      simp only [Points.of] at this
      omega
    | some g => exact ⟨g, rfl⟩
  obtain ⟨g, hfd⟩ := hfd
  obtain ⟨hle, hdata, href, hdp, hdc⟩ := frame_delta_some_shape hfd
  unfold Points.average_points_recovery
  dsimp only
  rw [hloop]
  simp only [Option.bind_eq_bind, Option.some_bind]
  rw [hfd]
  simp only [Option.some_bind]
  refine ⟨_, _, _, rfl, ?_⟩
  have hmark : (Points.mark_mapped_points g).reference_frame =
      Points.markList ref2 := by
    simp [Points.mark_mapped_points, href]
  simp only [Points.of, hmark, sumMappings_markList]
  rw [hsum2, sumMappings_zero hzero]
  omega

/-- Witness for claim C5 at a concrete two-point reference and one-point
current frame: the snapshot counters sum to 1. -/
theorem policy1_mapping_conservation_witness :
    ∃ s1 out snap,
      Points.average_points_recovery (Points.of [⟨⟨0, 0, 0⟩, ⟨7, 7, 7⟩, 0, 0⟩])
        (Points.of [⟨⟨0, 0, 0⟩, ⟨7, 7, 7⟩, 0, 0⟩, ⟨⟨2, 0, 0⟩, ⟨7, 7, 7⟩, 0, 1⟩]) =
        some (s1, out, snap) ∧
      sumMappings snap.data =
        (Points.of [⟨⟨0, 0, 0⟩, ⟨7, 7, 7⟩, 0, 0⟩]).data.length := by
  refine policy1_mapping_conservation _ _ ?_ ?_ ?_ ?_
  · simp [Points.of]
  · simp [indexed, Points.of, List.range_succ]
  · intro q hq
    simp only [Points.of, List.mem_cons, List.mem_singleton] at hq
    rcases hq with rfl | rfl | h
    · rfl
    · rfl
    · simp at h
  · simp [Points.of]

/-- Concrete reference frame used by witnesses: two points with fresh
counters and position-consistent indices. -/
def wRef : Points :=
  Points.of [⟨⟨0, 0, 0⟩, ⟨7, 7, 7⟩, 0, 0⟩, ⟨⟨2, 0, 0⟩, ⟨7, 7, 7⟩, 0, 1⟩]

/-- Concrete current frame used by witnesses: one point. -/
def wCur : Points := Points.of [⟨⟨0, 0, 0⟩, ⟨7, 7, 7⟩, 0, 0⟩]

/-- Claim C6: for both correspondence policies, a successful run returns an
output frame of the same length and order as the current frame, and every
output point carries the index of the current point at its position and a
mapping counter of 0. -/
theorem output_frame_index_preservation :
    (∀ (cur ref s1 out snap : Points),
      Points.average_points_recovery cur ref = some (s1, out, snap) →
      out.data.length = cur.data.length ∧
      ∀ (k : ℕ) (o : Point), out.data[k]? = some o →
        ∃ (q : Point), cur.data[k]? = some q ∧ o.index = q.index ∧ o.mapping = 0) ∧
    (∀ (cur ref : Points) (wc wl wm : ℚ) (s1 out snap : Points),
      Points.closest_with_ratio_average_points_recovery cur ref wc wl wm =
        some (s1, out, snap) →
      out.data.length = cur.data.length ∧
      ∀ (k : ℕ) (o : Point), out.data[k]? = some o →
        ∃ (q : Point), cur.data[k]? = some q ∧ o.index = q.index ∧ o.mapping = 0) := by
  constructor
  · intro cur ref s1 out snap h
    unfold Points.average_points_recovery at h
    dsimp only at h
    cases hloop : Points.policy1Loop ref.data cur.data ref.data with
    | none =>
      rw [hloop] at h
      simp at h
    | some pr =>
      obtain ⟨outs, ref2⟩ := pr
      rw [hloop] at h
      simp only [Option.bind_eq_bind, Option.some_bind] at h
      cases hfd : Points.frame_delta { cur with reference_frame := ref2 }
          (Points.of outs) with
      | none =>
        rw [hfd] at h
        simp at h
      | some g =>
        rw [hfd] at h
        simp only [Option.some_bind, Option.some.injEq, Prod.mk.injEq] at h
        obtain ⟨h1, h2, h3⟩ := h
        subst h2
        obtain ⟨hlen, hout⟩ := policy1Loop_outputs ref.data cur.data ref.data outs ref2 hloop
        constructor
        · simpa [Points.of] using hlen
        · intro k o hk
          simp only [Points.of] at hk
          obtain ⟨q, c, hq, rfl⟩ := hout k o hk
          exact ⟨q, hq, rfl, rfl⟩
  · intro cur ref wc wl wm s1 out snap h
    unfold Points.closest_with_ratio_average_points_recovery at h
    dsimp only at h
    cases hloop : Points.policy2Loop ref.data wc wl wm cur.data ref.data with
    | none =>
      rw [hloop] at h
      simp at h
    | some pr =>
      obtain ⟨outs, ref2⟩ := pr
      rw [hloop] at h
      simp only [Option.bind_eq_bind, Option.some_bind] at h
      cases hfd : Points.frame_delta { cur with reference_frame := ref2 }
          (Points.of outs) with
      | none =>
        rw [hfd] at h
        simp at h
      | some g =>
        rw [hfd] at h
        simp only [Option.some_bind, Option.some.injEq, Prod.mk.injEq] at h
        obtain ⟨h1, h2, h3⟩ := h
        subst h2
        obtain ⟨hlen, hout⟩ :=
          policy2Loop_outputs ref.data wc wl wm cur.data ref.data outs ref2 hloop
        constructor
        · simpa [Points.of] using hlen
        · intro k o hk
          simp only [Points.of] at hk
          obtain ⟨q, c, hq, rfl⟩ := hout k o hk
          exact ⟨q, hq, rfl, rfl⟩

/-- Witness for claim C6: both policies run on the concrete frames and the
output length and index facts hold there. -/
theorem output_frame_index_preservation_witness :
    (∃ s1 out snap, Points.average_points_recovery wCur wRef = some (s1, out, snap) ∧
      out.data.length = wCur.data.length) ∧
    (∃ s1 out snap,
      Points.closest_with_ratio_average_points_recovery wCur wRef 1 1 1 =
        some (s1, out, snap) ∧
      out.data.length = wCur.data.length) := by
  constructor
  · have h1 : (Points.average_points_recovery wCur wRef).isSome = true := by
      norm_num [Points.average_points_recovery, Points.policy1Loop, Point.get_nearest,
        kdNearest, Point.get_index, sqDist, bump, Points.frame_delta,
        Points.mark_mapped_points, Points.markList, Points.markPoint, Point.get_average,
        Points.of, wCur, wRef, PointCoordinate.get_average, PointColor.get_average]
    obtain ⟨⟨s1, out, snap⟩, ht⟩ := Option.isSome_iff_exists.mp h1
    exact ⟨s1, out, snap, ht,
      (output_frame_index_preservation.1 wCur wRef s1 out snap ht).1⟩
  · have h2 : (Points.closest_with_ratio_average_points_recovery wCur wRef 1 1 1).isSome =
        true := by
      norm_num [Points.closest_with_ratio_average_points_recovery, Points.policy2Loop,
        Point.get_average_closest_from_kdtree, Point.get_average_closest, Point.get_closest,
        Point.scanLoop, Point.get_nearests, kdNearests, sortByDist, insertByDist, nearerThan,
        Point.get_difference, Point.get_coord_delta, Point.get_color_delta, ratSqrt,
        natSqrtLin, List.range_succ, colorSqDist, sqDist, f32MAX, bump, Point.get_index,
        Point.new_default, PointCoordinate.new_default, PointColor.new_default,
        Points.frame_delta, Points.mark_mapped_points, Points.markList, Points.markPoint,
        Point.get_average, Points.of, wCur, wRef, PointCoordinate.get_average,
        PointColor.get_average]
    obtain ⟨⟨s1, out, snap⟩, ht⟩ := Option.isSome_iff_exists.mp h2
    exact ⟨s1, out, snap, ht,
      (output_frame_index_preservation.2 wCur wRef 1 1 1 s1 out snap ht).1⟩

/-- Counterexample to claim C4: invoked with a reference frame of size 0 AND
a current frame of size 0, neither policy fails — both run to completion. -/
theorem correspondence_empty_empty_succeeds :
    (Points.average_points_recovery (Points.of []) (Points.of [])).isSome = true ∧
    (Points.closest_with_ratio_average_points_recovery (Points.of []) (Points.of [])
      1 1 1).isSome = true := by
  constructor
  · rfl
  · rfl

/-- Claim C4 (amended): a correspondence operation over an empty reference
frame fails only when the current frame is nonempty (each query, or the
final counter bump, hits the empty snapshot); an empty current frame is
never an error — either policy then returns an empty output frame, leaves
the delta sequences untouched and returns a snapshot whose mapping counters
equal the input reference's. -/
theorem correspondence_empty_cases (cur ref : Points) :
    (cur.data ≠ [] → ref.data = [] →
      Points.average_points_recovery cur ref = none ∧
      ∀ (wc wl wm : ℚ),
        Points.closest_with_ratio_average_points_recovery cur ref wc wl wm = none) ∧
    (cur.data = [] → ∀ (wc wl wm : ℚ),
      ∃ s1 out1 snap1 s2 out2 snap2,
        Points.average_points_recovery cur ref = some (s1, out1, snap1) ∧
        Points.closest_with_ratio_average_points_recovery cur ref wc wl wm =
          some (s2, out2, snap2) ∧
        out1.data = [] ∧ out2.data = [] ∧
        s1.delta_pos_vector = cur.delta_pos_vector ∧
        s1.delta_colours = cur.delta_colours ∧
        s2.delta_pos_vector = cur.delta_pos_vector ∧
        s2.delta_colours = cur.delta_colours ∧
        snap1.data.map Point.mapping = ref.data.map Point.mapping ∧
        snap2.data.map Point.mapping = ref.data.map Point.mapping) := by
  constructor
  · intro hcur href
    obtain ⟨q, rest, hq⟩ := List.exists_cons_of_ne_nil hcur
    constructor
    · unfold Points.average_points_recovery
      dsimp only
      rw [href, hq]
      have hl : Points.policy1Loop [] (q :: rest) [] = none := by
        simp [Points.policy1Loop, Point.get_nearest, kdNearest]
      rw [hl]
      rfl
    · intro wc wl wm
      unfold Points.closest_with_ratio_average_points_recovery
      dsimp only
      rw [href, hq]
      have hl : Points.policy2Loop [] wc wl wm (q :: rest) [] = none := by
        simp [Points.policy2Loop, Point.get_average_closest_from_kdtree,
          Point.get_average_closest, Point.get_closest, Point.get_nearests,
          kdNearests, sortByDist, Point.scanLoop, Point.get_index, Points.of]
      rw [hl]
      rfl
  · intro hcur wc wl wm
    have hfd : Points.frame_delta { cur with reference_frame := ref.data }
        (Points.of []) = some { cur with reference_frame := ref.data } := by
      unfold Points.frame_delta
      simp [Points.of]
    rw [hcur] at hfd
    have h1 : Points.average_points_recovery cur ref =
        some (Points.mark_mapped_points { cur with reference_frame := ref.data },
          Points.of [],
          Points.of (Points.markList ref.data)) := by
      unfold Points.average_points_recovery
      dsimp only
      rw [hcur]
      simp only [Points.policy1Loop, Option.bind_eq_bind, Option.some_bind]
      rw [hfd]
      simp [Points.mark_mapped_points]
    have h2 : Points.closest_with_ratio_average_points_recovery cur ref wc wl wm =
        some (Points.mark_mapped_points { cur with reference_frame := ref.data },
          Points.of [],
          Points.of (Points.markList ref.data)) := by
      unfold Points.closest_with_ratio_average_points_recovery
      dsimp only
      rw [hcur]
      simp only [Points.policy2Loop, Option.bind_eq_bind, Option.some_bind]
      rw [hfd]
      simp [Points.mark_mapped_points]
    refine ⟨_, _, _, _, _, _, h1, h2, rfl, rfl, ?_, ?_, ?_, ?_, ?_, ?_⟩
    · simp [Points.mark_mapped_points]
    · simp [Points.mark_mapped_points]
    · simp [Points.mark_mapped_points]
    · simp [Points.mark_mapped_points]
    · simp only [Points.of]
      exact markList_mapping ref.data
    · simp only [Points.of]
      exact markList_mapping ref.data

/-- Witness for the amended claim C4: a nonempty current frame against an
empty reference fails, and an empty current frame against a one-point
reference succeeds with empty output and deltas. -/
theorem correspondence_empty_cases_witness :
    Points.average_points_recovery frameC (Points.of []) = none ∧
    (∃ s1 out1 snap1 s2 out2 snap2,
      Points.average_points_recovery (Points.of []) frameC = some (s1, out1, snap1) ∧
      Points.closest_with_ratio_average_points_recovery (Points.of []) frameC 1 1 1 =
        some (s2, out2, snap2) ∧
      out1.data = [] ∧ out2.data = [] ∧
      s1.delta_pos_vector = (Points.of []).delta_pos_vector ∧
      s1.delta_colours = (Points.of []).delta_colours ∧
      s2.delta_pos_vector = (Points.of []).delta_pos_vector ∧
      s2.delta_colours = (Points.of []).delta_colours ∧
      snap1.data.map Point.mapping = frameC.data.map Point.mapping ∧
      snap2.data.map Point.mapping = frameC.data.map Point.mapping) := by
  constructor
  · exact ((correspondence_empty_cases frameC (Points.of [])).1
      (by simp [frameC, Points.of]) rfl).1
  · exact (correspondence_empty_cases (Points.of []) frameC).2 rfl 1 1 1

/-! Lemmas about the Policy 2 traversal's success. -/

/-- The candidate scan succeeds whenever every candidate's index is in
snapshot range; the snapshot length is preserved and the running best is the
initial one or a candidate. -/
lemma scanLoop_total (p : Point) (wc wl wm : ℚ) :
    ∀ (cands : List Point) (mn : ℚ) (res : Point) (ref : List Point),
    (∀ c ∈ cands, c.index < ref.length) →
    ∃ mn2 res2 ref2,
      Point.scanLoop p wc wl wm cands mn res ref = some (mn2, res2, ref2) ∧
      ref2.length = ref.length ∧ (res2 = res ∨ res2 ∈ cands) := by
  intro cands
  induction cands with
  | nil =>
    intro mn res ref _
    exact ⟨mn, res, ref, rfl, rfl, Or.inl rfl⟩
  | cons c cs ih =>
    intro mn res ref hc
    have hi : c.index < ref.length := hc c (List.mem_cons_self _ _)
    have hr : ref[c.index]? = some ref[c.index] := List.getElem?_eq_getElem hi
    rw [Point.scanLoop]
    simp only [Point.get_index, hr]
    split
    case isTrue hlt =>
      have hc1 : ∀ x ∈ cs, x.index < (ref.set c.index (bump ref[c.index])).length := by
        intro x hx
        rw [List.length_set]
        exact hc x (List.mem_cons_of_mem _ hx)
      obtain ⟨mn2, res2, ref2, heq, hlen, hres⟩ := ih _ c _ hc1
      refine ⟨mn2, res2, ref2, heq, ?_, ?_⟩
      · rw [hlen, List.length_set]
      · rcases hres with rfl | hmem
        · exact Or.inr (List.mem_cons_self _ _)
        · exact Or.inr (List.mem_cons_of_mem _ hmem)
    case isFalse hlt =>
      have hc1 : ∀ x ∈ cs, x.index < ref.length :=
        fun x hx => hc x (List.mem_cons_of_mem _ hx)
      obtain ⟨mn2, res2, ref2, heq, hlen, hres⟩ := ih mn res ref hc1
      refine ⟨mn2, res2, ref2, heq, hlen, ?_⟩
      rcases hres with rfl | hmem
      · exact Or.inl rfl
      · exact Or.inr (List.mem_cons_of_mem _ hmem)

/-- get_closest succeeds over a nonempty snapshot when every candidate's
index is in range; the snapshot length is preserved. -/
lemma get_closest_total (p : Point) (cands : Points) (wc wl : ℚ)
    (ref : List Point) (wm : ℚ)
    (hc : ∀ c ∈ cands.data, c.index < ref.length) (h0 : 0 < ref.length) :
    ∃ r ref2, Point.get_closest p cands wc wl ref wm = some (r, ref2) ∧
      ref2.length = ref.length := by
  obtain ⟨mn2, res2, ref1, hscan, hlen1, hres⟩ :=
    scanLoop_total p wc wl wm cands.data f32MAX Point.new_default ref hc
  have hi : res2.index < ref1.length := by
    rcases hres with rfl | hmem
    · rw [hlen1]
      exact h0
    · rw [hlen1]
      exact hc res2 hmem
  have hr : ref1[res2.index]? = some ref1[res2.index] := List.getElem?_eq_getElem hi
  refine ⟨res2, ref1.set res2.index (bump ref1[res2.index]), ?_, ?_⟩
  · unfold Point.get_closest
    rw [hscan]
    simp [Point.get_index, hr]
  · rw [List.length_set, hlen1]

/-- The Policy 2 traversal succeeds over a nonempty snapshot with in-range
tree indices; it preserves the snapshot length and emits one output per
current point. -/
lemma policy2Loop_total (tree : List Point) (wc wl wm : ℚ) :
    ∀ (cur ref : List Point), (∀ c ∈ tree, c.index < ref.length) →
    0 < ref.length →
    ∃ outs ref2, Points.policy2Loop tree wc wl wm cur ref = some (outs, ref2) ∧
      ref2.length = ref.length ∧ outs.length = cur.length := by
  intro cur
  induction cur with
  | nil =>
    intro ref _ _
    exact ⟨[], ref, rfl, rfl, rfl⟩
  | cons q rest ih =>
    intro ref hidx h0
    have hcands : ∀ c ∈ (q.get_nearests tree 400).data, c.index < ref.length := by
      intro c hcmem
      simp only [Point.get_nearests, Points.of] at hcmem
      exact hidx c (kdNearests_mem hcmem)
    obtain ⟨r, ref1, hgc, hlen1⟩ :=
      get_closest_total q (q.get_nearests tree 400) wc wl ref wm hcands h0
    have hstep : q.get_average_closest_from_kdtree tree wc wl ref wm =
        some (q.get_average r, ref1) := by
      unfold Point.get_average_closest_from_kdtree Point.get_average_closest
      rw [hgc]
      rfl
    obtain ⟨outs, ref2, hloop, hlen2, houts⟩ := ih ref1
      (by intro c hcm; rw [hlen1]; exact hidx c hcm) (by rw [hlen1]; exact h0)
    refine ⟨q.get_average r :: outs, ref2, ?_, ?_, ?_⟩
    · simp [Points.policy2Loop, hstep, hloop]
    · rw [hlen2, hlen1]
    · simp [houts]

/-- Claim C7: Policy 2 queries the spatial index through get_nearests, which
accepts the candidate count as an explicit parameter; the policy entry point
instantiates it at 400.  The k-nearest query returns min k N candidates —
all of them when fewer than k exist — and over a nonempty,
position-consistent reference the full Policy 2 recovery succeeds with no
out-of-bounds access. -/
theorem policy2_k_candidates :
    (∀ (p : Point) (tree : List Point) (wc wl : ℚ) (ref : List Point) (wm : ℚ),
      Point.get_average_closest_from_kdtree p tree wc wl ref wm =
        Point.get_average_closest p (p.get_nearests tree 400) wc wl ref wm) ∧
    (∀ (p : Point) (tree : List Point) (k : ℕ),
      (p.get_nearests tree k).data.length = min k tree.length) ∧
    (∀ (cur ref : Points) (wc wl wm : ℚ), ref.data ≠ [] → indexed ref.data →
      ∃ s1 out snap,
        Points.closest_with_ratio_average_points_recovery cur ref wc wl wm =
          some (s1, out, snap)) := by
  refine ⟨fun p tree wc wl ref wm => rfl, ?_, ?_⟩
  · intro p tree k
    simp [Point.get_nearests, Points.of, kdNearests_length]
  · intro cur ref wc wl wm hne hidx
    have h0 : 0 < ref.data.length := List.length_pos.mpr hne
    have hbound : ∀ c ∈ ref.data, c.index < ref.data.length :=
      fun c hc => indexed_mem_lt hidx hc
    obtain ⟨outs, ref2, hloop, hlen2, houts⟩ :=
      policy2Loop_total ref.data wc wl wm cur.data ref.data hbound h0
    have hfd : ∃ g, Points.frame_delta { cur with reference_frame := ref2 }
        (Points.of outs) = some g := by
      cases hpd : Points.frame_delta { cur with reference_frame := ref2 }
          (Points.of outs) with
      | none =>
        have := (frame_delta_isNone_iff _ _).mp hpd
        simp only [Points.of] at this
        omega
      | some g => exact ⟨g, rfl⟩
    obtain ⟨g, hfd⟩ := hfd
    unfold Points.closest_with_ratio_average_points_recovery
    dsimp only
    rw [hloop]
    simp only [Option.bind_eq_bind, Option.some_bind]
    rw [hfd]
    simp only [Option.some_bind]
    exact ⟨_, _, _, rfl⟩

/-- Witness for claim C7 in the S5 style: a reference of size 3 with K=400
returns all 3 candidates and Policy 2 succeeds with no out-of-bounds
access. -/
theorem policy2_k_candidates_witness :
    (Point.get_nearests ⟨⟨0, 0, 0⟩, ⟨7, 7, 7⟩, 0, 0⟩
        [⟨⟨0, 0, 0⟩, ⟨7, 7, 7⟩, 0, 0⟩, ⟨⟨2, 0, 0⟩, ⟨7, 7, 7⟩, 0, 1⟩,
         ⟨⟨0, 2, 0⟩, ⟨7, 7, 7⟩, 0, 2⟩] 400).data.length = min 400 3 ∧
    ∃ s1 out snap,
      Points.closest_with_ratio_average_points_recovery wCur
        (Points.of [⟨⟨0, 0, 0⟩, ⟨7, 7, 7⟩, 0, 0⟩, ⟨⟨2, 0, 0⟩, ⟨7, 7, 7⟩, 0, 1⟩,
          ⟨⟨0, 2, 0⟩, ⟨7, 7, 7⟩, 0, 2⟩]) 1 1 1 = some (s1, out, snap) := by
  constructor
  · have h := policy2_k_candidates.2.1 ⟨⟨0, 0, 0⟩, ⟨7, 7, 7⟩, 0, 0⟩
      [⟨⟨0, 0, 0⟩, ⟨7, 7, 7⟩, 0, 0⟩, ⟨⟨2, 0, 0⟩, ⟨7, 7, 7⟩, 0, 1⟩,
       ⟨⟨0, 2, 0⟩, ⟨7, 7, 7⟩, 0, 2⟩] 400
    simpa using h
  · exact policy2_k_candidates.2.2 wCur
      (Points.of [⟨⟨0, 0, 0⟩, ⟨7, 7, 7⟩, 0, 0⟩, ⟨⟨2, 0, 0⟩, ⟨7, 7, 7⟩, 0, 1⟩,
        ⟨⟨0, 2, 0⟩, ⟨7, 7, 7⟩, 0, 2⟩]) 1 1 1
      (by simp [Points.of])
      (by simp [indexed, Points.of, List.range_succ])

end VVtk
